import Mathlib

/-!
Verification of the DAAM core: the token-merge resolver
(`compute_token_merge_indices` in `daam/utils.py`) and the mask accumulator
(`_add_mask` in `daam/experiment.py`).

Python strings are embedded as `List Char`; the tokenizer's token sequence is
a `List (List Char)` parameter.  Tensors are embedded as flat lists of
rationals (`List ℚ`) with element-wise operations; Python dicts become
association lists that preserve insertion order and replace values in place.
A Python `KeyError` is modelled by returning `none`.
-/

set_option maxHeartbeats 1000000

namespace Daam

/-- The end-of-word marker `</w>` as a character list. -/
def eow : List Char := ['<', '/', 'w', '>']

/-- Python `'</w>' in token`: does the token contain the marker as a
contiguous substring? -/
def containsEow : List Char → Bool
  | [] => false
  | c :: cs => (decide ((c :: cs).take 4 = eow)) || containsEow cs

/-- Python `token[:-4]`: drop the last four characters. -/
def stripEow (t : List Char) : List Char := t.take (t.length - 4)

/-- Python `str.lower()` (character-wise). -/
def toLowerL (s : List Char) : List Char := s.map Char.toLower

/-- The walk over the token sequence in `compute_token_merge_indices`
(`utils.py` lines 80-94).  `idx` is the enumeration counter, `currIdx` the
running word counter, `currTok` the accumulated word, `acc` the candidate
buffer `merge_idxs`.  Note that the source appends `idx` once at the top of
the loop body and a second time in the `else` branch, so a non-final
sub-word piece contributes its index twice. -/
def tokenWalk (word : List Char) (wordIdx : Nat) :
    List (List Char) → Nat → Nat → List Char → List Nat → List Nat
  | [], _, _, _, acc => acc
  | t :: ts, idx, currIdx, currTok, acc =>
    if containsEow t then
      if currIdx = wordIdx ∧ currTok ++ stripEow t = word then
        acc ++ [idx]
      else
        tokenWalk word wordIdx ts (idx + 1) (currIdx + 1) [] []
    else
      tokenWalk word wordIdx ts (idx + 1) currIdx (currTok ++ t) (acc ++ [idx, idx])

/-- Python whitespace characters recognised by `str.split()`. -/
def isPyWs (c : Char) : Bool :=
  c = ' ' || c = '\t' || c = '\n' || c = '\r' || c = '\x0b' || c = '\x0c'

/-- Helper for `pySplit`: `acc` holds the current word reversed. -/
def pySplitGo : List Char → List Char → List (List Char)
  | [], acc => if acc = [] then [] else [acc.reverse]
  | c :: cs, acc =>
    if isPyWs c then
      (if acc = [] then pySplitGo cs [] else acc.reverse :: pySplitGo cs [])
    else
      pySplitGo cs (c :: acc)

/-- Python `str.split()` with no argument: split on whitespace runs,
discarding empty pieces. -/
def pySplit (s : List Char) : List (List Char) := pySplitGo s []

/-- Python `list.index(x)`: index of the first occurrence, `none` when the
element is absent (where Python raises `ValueError`). -/
def listIndex : List (List Char) → List Char → Option Nat
  | [], _ => none
  | x :: xs, w => if x = w then some 0 else (listIndex xs w).map (· + 1)

/-- The punctuation marks tried by the fallback search, in source order. -/
def puncts : List Char := ['.', ',', '!', '?']

/-- The fallback loop of `utils.py` lines 69-74: retry the index search with
each punctuation mark appended, taking the first success. -/
def tryPuncts (ws : List (List Char)) (word : List Char) : List Char → Option Nat
  | [] => none
  | p :: ps =>
    match listIndex ws (word ++ [p]) with
    | some i => some i
    | none => tryPuncts ws word ps

/-- The word-index search of `utils.py` lines 65-77 (without the final
raise): plain search first, then the punctuation fallbacks. -/
def lookupWordIdx (ws : List (List Char)) (word : List Char) : Option Nat :=
  match listIndex ws word with
  | some i => some i
  | none => tryPuncts ws word puncts

/-- The error raised by `compute_token_merge_indices` when the word cannot
be located in the prompt (`utils.py` line 77). -/
inductive ResolveError where
  | wordNotFound (word prompt : List Char)
deriving DecidableEq

/-- `compute_token_merge_indices` (`utils.py` lines 57-96).  `tokens` stands
for `tokenizer.tokenize(prompt)`, supplied by the external tokenizer. -/
def compute_token_merge_indices (tokens : List (List Char))
    (prompt word : List Char) (word_idx : Option Nat) :
    Except ResolveError (List Nat) :=
  let promptL := toLowerL prompt
  let wordL := toLowerL word
  match word_idx with
  | some wi => .ok ((tokenWalk wordL wi tokens 0 0 [] []).map (· + 1))
  | none =>
    match lookupWordIdx (pySplit promptL) wordL with
    | some wi => .ok ((tokenWalk wordL wi tokens 0 0 [] []).map (· + 1))
    | none => .error (.wordNotFound wordL promptL)

/-- Strip the end-of-word marker from a token when it carries one. -/
def stripTok (t : List Char) : List Char :=
  if containsEow t then stripEow t else t

/-- De-tokenize: concatenate the (stripped) tokens selected by a list of
result indices.  The indices returned by `compute_token_merge_indices` are
offset by one for a prepended special token, hence the `i - 1`. -/
def detok (tokens : List (List Char)) (idxs : List Nat) : List Char :=
  (idxs.map (fun i => stripTok (tokens.getD (i - 1) []))).flatten

/-- One whitespace-separated word of the prompt as the tokenizer emits it:
`init` are the non-final sub-word pieces, `last` the final piece, which
carries the `</w>` marker in the token stream. -/
structure Group where
  init : List (List Char)
  last : List Char
deriving DecidableEq

/-- The tokens a group contributes to the token stream. -/
def Group.tokens (g : Group) : List (List Char) := g.init ++ [g.last ++ eow]

/-- The prompt word a group spells. -/
def Group.word (g : Group) : List Char := g.init.flatten ++ g.last

/-- Well-formedness: no non-final piece contains the marker. -/
def Group.ok (g : Group) : Prop := ∀ p ∈ g.init, containsEow p = false

instance (g : Group) : Decidable g.ok := by unfold Group.ok; infer_instance

/-- `dupTwice b k = [b, b, b+1, b+1, …, b+k-1, b+k-1]`: the index pattern the
walk accumulates over `k` non-final pieces starting at position `b`. -/
def dupTwice : Nat → Nat → List Nat
  | _, 0 => []
  | b, k + 1 => b :: b :: dupTwice (b + 1) k

/-- `rng a n = [a, a+1, …, a+n-1]`. -/
def rng : Nat → Nat → List Nat
  | _, 0 => []
  | a, n + 1 => a :: rng (a + 1) n

/-- Number of tokens contributed by the first `j` groups. -/
def prefLen (gs : List Group) (j : Nat) : Nat :=
  (((gs.take j).map Group.tokens).flatten).length

/-! ### Mask accumulator (`experiment.py`) -/

/-- A mask tensor, flattened to its entries in row-major order. -/
abbrev Mask := List ℚ

/-- Clamp a value to `[0, 1]` (torch `clamp_(0, 1)` on one element). -/
def clampQ (x : ℚ) : ℚ := max 0 (min 1 x)

/-- Element-wise clamp of a mask to `[0, 1]`. -/
def clampMask (m : Mask) : Mask := m.map clampQ

/-- Element-wise sum of two masks. -/
def addMask (a b : Mask) : Mask := List.zipWith (· + ·) a b

/-- A Python dict from label to mask: an association list in insertion
order with unique keys. -/
abbrev LabelMasks := List (String × Mask)

/-- Python `str.lower()` on a label. -/
def lowerStr (s : String) : String := ⟨s.data.map Char.toLower⟩

/-- Python `word in masks`. -/
def containsKey (m : LabelMasks) (k : String) : Bool :=
  m.any (fun p => p.1 == k)

/-- Python `masks[k]` as a partial lookup. -/
def dictGet? : LabelMasks → String → Option Mask
  | [], _ => none
  | p :: t, k => if p.1 == k then some p.2 else dictGet? t k

/-- Python `masks[k] = v`: replace the value in place when the key exists,
otherwise append the new binding. -/
def dictSet (m : LabelMasks) (k : String) (v : Mask) : LabelMasks :=
  if containsKey m k then
    m.map (fun p => if p.1 == k then (p.1, v) else p)
  else
    m ++ [(k, v)]

/-- `COCO80_LABELS` (`experiment.py` lines 16-26). -/
def COCO80_LABELS : List String := [
  "person", "bicycle", "car", "motorcycle", "airplane", "bus", "train", "truck", "boat", "traffic light",
  "fire hydrant", "stop sign", "parking meter", "bench", "bird", "cat", "dog", "horse", "sheep", "cow",
  "elephant", "bear", "zebra", "giraffe", "backpack", "umbrella", "handbag", "tie", "suitcase", "frisbee",
  "skis", "snowboard", "sports ball", "kite", "baseball bat", "baseball glove", "skateboard", "surfboard",
  "tennis racket", "bottle", "wine glass", "cup", "fork", "knife", "spoon", "bowl", "banana", "apple",
  "sandwich", "orange", "broccoli", "carrot", "hot dog", "pizza", "donut", "cake", "chair", "couch",
  "potted plant", "bed", "dining table", "toilet", "tv", "laptop", "mouse", "remote", "keyboard", "cell phone",
  "microwave", "oven", "toaster", "sink", "refrigerator", "book", "clock", "vase", "scissors", "teddy bear",
  "hair drier", "toothbrush"]

/-- `COCOSTUFF27_LABELS` (`experiment.py` lines 32-36), verbatim including
the repeated entries. -/
def COCOSTUFF27_LABELS : List String := [
  "electronic", "appliance", "food", "furniture", "indoor", "kitchen", "accessory", "animal", "outdoor", "person",
  "sports", "vehicle", "ceiling", "floor", "food", "furniture", "rawmaterial", "textile", "wall", "window",
  "building", "ground", "plant", "sky", "solid", "structural", "water"]

/-- `COCO80_TO_27` (`experiment.py` lines 39-56). -/
def COCO80_TO_27 : List (String × String) := [
  ("bicycle", "vehicle"), ("car", "vehicle"), ("motorcycle", "vehicle"), ("airplane", "vehicle"), ("bus", "vehicle"),
  ("train", "vehicle"), ("truck", "vehicle"), ("boat", "vehicle"), ("traffic light", "accessory"), ("fire hydrant", "accessory"),
  ("stop sign", "accessory"), ("parking meter", "accessory"), ("bench", "furniture"), ("bird", "animal"), ("cat", "animal"),
  ("dog", "animal"), ("horse", "animal"), ("sheep", "animal"), ("cow", "animal"), ("elephant", "animal"), ("bear", "animal"),
  ("zebra", "animal"), ("giraffe", "animal"), ("backpack", "accessory"), ("umbrella", "accessory"), ("handbag", "accessory"),
  ("tie", "accessory"), ("suitcase", "accessory"), ("frisbee", "sports"), ("skis", "sports"), ("snowboard", "sports"),
  ("sports ball", "sports"), ("kite", "sports"), ("baseball bat", "sports"), ("baseball glove", "sports"),
  ("skateboard", "sports"), ("surfboard", "sports"), ("tennis racket", "sports"), ("bottle", "food"), ("wine glass", "food"),
  ("cup", "food"), ("fork", "food"), ("knife", "food"), ("spoon", "food"), ("bowl", "food"), ("banana", "food"), ("apple", "food"),
  ("sandwich", "food"), ("orange", "food"), ("broccoli", "food"), ("carrot", "food"), ("hot dog", "food"), ("pizza", "food"),
  ("donut", "food"), ("cake", "food"), ("chair", "furniture"), ("couch", "furniture"), ("potted plant", "plant"),
  ("bed", "furniture"), ("dining table", "furniture"), ("toilet", "furniture"), ("tv", "electronic"), ("laptop", "electronic"),
  ("mouse", "electronic"), ("remote", "electronic"), ("keyboard", "electronic"), ("cell phone", "electronic"),
  ("microwave", "appliance"), ("oven", "appliance"), ("toaster", "appliance"), ("sink", "appliance"),
  ("refrigerator", "appliance"), ("book", "indoor"), ("clock", "indoor"), ("vase", "indoor"), ("scissors", "indoor"),
  ("teddy bear", "indoor"), ("hair drier", "indoor"), ("toothbrush", "indoor")]

/-- Table lookup with default: Python `COCO80_TO_27.get(word, word)`. -/
def coco80Get (w : String) : String :=
  ((COCO80_TO_27.find? (fun p => p.1 == w)).map (·.2)).getD w

/-- The label remapping performed by `_add_mask` when `simplify80` is set
(`experiment.py` lines 60-61). -/
def remapLabel (simplify80 : Bool) (w : String) : String :=
  if simplify80 then coco80Get w else w

/-- `_add_mask` (`experiment.py` lines 59-69).  The merge path reads
`masks[word.lower()]`, which in Python raises `KeyError` when the
lower-cased key is missing; that outcome is `none` here. -/
def _add_mask (masks : LabelMasks) (word : String) (mask : Mask)
    (simplify80 : Bool) : Option LabelMasks :=
  let w := remapLabel simplify80 word
  if containsKey masks w then
    match dictGet? masks (lowerStr w) with
    | none => none
    | some old => some (dictSet masks w (clampMask (addMask old mask)))
  else
    some (dictSet masks w mask)

/-- Every entry of a mask lies in `[0, 1]`. -/
def maskIn01 (m : Mask) : Prop := ∀ x ∈ m, 0 ≤ x ∧ x ≤ 1

/-- Every mask stored in a map lies element-wise in `[0, 1]`. -/
def mapIn01 (ms : LabelMasks) : Prop := ∀ p ∈ ms, maskIn01 p.2

instance (m : Mask) : Decidable (maskIn01 m) := by unfold maskIn01; infer_instance

instance (ms : LabelMasks) : Decidable (mapIn01 ms) := by unfold mapIn01; infer_instance

/-! ### Lemmas about the token walk -/

theorem containsEow_append_eow (l : List Char) : containsEow (l ++ eow) = true := by
  induction l with
  | nil => rfl
  | cons c cs ih => simp [containsEow, ih]

theorem take_len_append {α : Type} (l r : List α) : (l ++ r).take l.length = l := by
  induction l with
  | nil => rfl
  | cons x xs ih => simp [ih]

theorem stripEow_append_eow (l : List Char) : stripEow (l ++ eow) = l := by
  unfold stripEow
  have h : (l ++ eow).length - 4 = l.length := by simp [eow]
  rw [h, take_len_append]

theorem tokenWalk_noeow (w : List Char) (wi : Nat) (ps : List (List Char)) :
    (∀ p ∈ ps, containsEow p = false) →
    ∀ (rest : List (List Char)) (b c : Nat) (t : List Char) (a : List Nat),
    tokenWalk w wi (ps ++ rest) b c t a
      = tokenWalk w wi rest (b + ps.length) c (t ++ ps.flatten) (a ++ dupTwice b ps.length) := by
  induction ps with
  | nil => intro _ rest b c t a; simp [dupTwice]
  | cons p ps ih =>
    intro hps rest b c t a
    have hp : containsEow p = false := hps p (List.mem_cons_self _ _)
    simp only [List.cons_append, tokenWalk, hp, Bool.false_eq_true, if_false, List.append_eq]
    rw [ih (fun q hq => hps q (List.mem_cons_of_mem _ hq)) rest (b + 1) c (t ++ p) (a ++ [b, b])]
    have harith : b + 1 + ps.length = b + (ps.length + 1) := by omega
    rw [harith]
    simp [dupTwice, List.append_assoc]

theorem tokenWalk_group_skip (w : List Char) (wi : Nat) (g : Group) (hok : g.ok)
    (rest : List (List Char)) (b c : Nat) (h : ¬(c = wi ∧ g.word = w)) :
    tokenWalk w wi (g.tokens ++ rest) b c [] []
      = tokenWalk w wi rest (b + g.tokens.length) (c + 1) [] [] := by
  unfold Group.tokens
  rw [List.append_assoc, tokenWalk_noeow w wi g.init hok ([g.last ++ eow] ++ rest) b c [] []]
  simp only [List.singleton_append, tokenWalk, containsEow_append_eow, if_true,
    stripEow_append_eow, List.nil_append, List.append_eq]
  rw [if_neg (by simpa [Group.word] using h)]
  have harith : b + g.init.length + 1 = b + (g.init ++ [g.last ++ eow]).length := by
    simp; omega
  rw [harith]

theorem tokenWalk_group_match (w : List Char) (wi : Nat) (g : Group) (hok : g.ok)
    (rest : List (List Char)) (b c : Nat) (hc : c = wi) (hw : g.word = w) :
    tokenWalk w wi (g.tokens ++ rest) b c [] []
      = dupTwice b g.init.length ++ [b + g.init.length] := by
  unfold Group.tokens
  rw [List.append_assoc, tokenWalk_noeow w wi g.init hok ([g.last ++ eow] ++ rest) b c [] []]
  simp only [List.singleton_append, tokenWalk, containsEow_append_eow, if_true,
    stripEow_append_eow, List.nil_append, List.append_eq]
  rw [if_pos ⟨hc, by simpa [Group.word] using hw⟩]

theorem prefLen_cons (g : Group) (gs : List Group) (j : Nat) :
    prefLen (g :: gs) (j + 1) = g.tokens.length + prefLen gs j := by
  simp [prefLen]

theorem tokenWalk_groups (w : List Char) (gs : List Group) :
    ∀ (j : Nat) (hj : j < gs.length), (∀ g ∈ gs, g.ok) →
    (gs.get ⟨j, hj⟩).word = w →
    ∀ (rest : List (List Char)) (c b : Nat),
    tokenWalk w (c + j) ((gs.map Group.tokens).flatten ++ rest) b c [] []
      = dupTwice (b + prefLen gs j) (gs.get ⟨j, hj⟩).init.length
        ++ [b + prefLen gs j + (gs.get ⟨j, hj⟩).init.length] := by
  induction gs with
  | nil => intro j hj; exact absurd hj (by simp)
  | cons g gs ih =>
    intro j hj hok hw rest c b
    match j with
    | 0 =>
      simp only [List.get] at hw
      have h0 : prefLen (g :: gs) 0 = 0 := by simp [prefLen]
      simp only [List.get, h0, Nat.add_zero]
      rw [List.map_cons, List.flatten_cons, List.append_assoc]
      exact tokenWalk_group_match w c g (hok g (List.mem_cons_self _ _)) _ b c rfl hw
    | j' + 1 =>
      have hj' : j' < gs.length := by simpa using hj
      simp only [List.get] at hw
      rw [List.map_cons, List.flatten_cons, List.append_assoc]
      have hne : ¬(c = c + (j' + 1) ∧ g.word = w) := by
        rintro ⟨hc, -⟩; omega
      rw [tokenWalk_group_skip w (c + (j' + 1)) g (hok g (List.mem_cons_self _ _)) _ b c hne]
      have harith : c + (j' + 1) = (c + 1) + j' := by omega
      rw [harith, ih j' hj' (fun q hq => hok q (List.mem_cons_of_mem _ hq)) hw rest (c + 1)
        (b + g.tokens.length)]
      simp only [List.get, prefLen_cons]
      have h1 : b + g.tokens.length + prefLen gs j' = b + (g.tokens.length + prefLen gs j') := by
        omega
      rw [h1]

theorem dupTwice_mem : ∀ (k b x : Nat), x ∈ dupTwice b k → b ≤ x ∧ x < b + k := by
  intro k
  induction k with
  | zero => intro b x hx; simp [dupTwice] at hx
  | succ k ih =>
    intro b x hx
    simp only [dupTwice, List.mem_cons] at hx
    rcases hx with rfl | rfl | hx
    · omega
    · omega
    · have := ih (b + 1) x hx; omega

theorem rng_mem : ∀ (n a x : Nat), x ∈ rng a n → a ≤ x ∧ x < a + n := by
  intro n
  induction n with
  | zero => intro a x hx; simp [rng] at hx
  | succ n ih =>
    intro a x hx
    simp only [rng, List.mem_cons] at hx
    rcases hx with rfl | hx
    · omega
    · have := ih (a + 1) x hx; omega

theorem dupTwice_map_succ : ∀ (k b : Nat), (dupTwice b k).map (· + 1) = dupTwice (b + 1) k := by
  intro k
  induction k with
  | zero => intro b; rfl
  | succ k ih => intro b; simp [dupTwice, ih]

theorem dupTwice_pairwise_le : ∀ (k b : Nat), List.Pairwise (· ≤ ·) (dupTwice b k ++ [b + k]) := by
  intro k
  induction k with
  | zero => intro b; simp [dupTwice]
  | succ k ih =>
    intro b
    have hmem : ∀ x ∈ dupTwice (b + 1) k ++ [b + 1 + k], b ≤ x := by
      intro x hx
      rcases List.mem_append.mp hx with hx | hx
      · have := dupTwice_mem k (b + 1) x hx; omega
      · simp at hx; omega
    have harith : b + (k + 1) = b + 1 + k := by omega
    simp only [dupTwice, List.cons_append, harith]
    refine List.pairwise_cons.mpr ⟨?_, List.pairwise_cons.mpr ⟨hmem, ih (b + 1)⟩⟩
    intro x hx
    rcases List.mem_cons.mp hx with rfl | hx
    · omega
    · exact hmem x hx

theorem rng_pairwise_lt : ∀ (n a : Nat), List.Pairwise (· < ·) (rng a n) := by
  intro n
  induction n with
  | zero => intro a; simp [rng]
  | succ n ih =>
    intro a
    simp only [rng]
    refine List.pairwise_cons.mpr ⟨?_, ih (a + 1)⟩
    intro x hx
    have := rng_mem n (a + 1) x hx; omega

theorem dedup_dupTwice : ∀ (k a : Nat), (dupTwice a k ++ [a + k]).dedup = rng a (k + 1) := by
  intro k
  induction k with
  | zero => intro a; simp [dupTwice, rng, List.dedup]
  | succ k ih =>
    intro a
    have harith : a + (k + 1) = a + 1 + k := by omega
    have hnot : a ∉ dupTwice (a + 1) k ++ [a + 1 + k] := by
      intro hx
      rcases List.mem_append.mp hx with hx | hx
      · have := dupTwice_mem k (a + 1) a hx; omega
      · simp at hx; omega
    simp only [dupTwice, List.cons_append, harith]
    rw [List.dedup_cons_of_mem (List.mem_cons_self _ _), List.dedup_cons_of_not_mem hnot,
      ih (a + 1)]
    rfl

theorem listIndex_some : ∀ (l : List (List Char)) (w : List Char) (j : Nat),
    listIndex l w = some j → ∃ hj : j < l.length, l.get ⟨j, hj⟩ = w := by
  intro l
  induction l with
  | nil => intro w j h; simp [listIndex] at h
  | cons x xs ih =>
    intro w j h
    by_cases hx : x = w
    · simp only [listIndex, if_pos hx, Option.some.injEq] at h
      subst h
      exact ⟨by simp, hx⟩
    · simp only [listIndex, if_neg hx, Option.map_eq_some'] at h
      obtain ⟨j0, hj0, rfl⟩ := h
      obtain ⟨hlt, hget⟩ := ih w j0 hj0
      exact ⟨by simpa using hlt, by simpa using hget⟩

theorem listIndex_mem : ∀ (l : List (List Char)) (w : List Char),
    w ∈ l → ∃ j, listIndex l w = some j := by
  intro l
  induction l with
  | nil => intro w h; simp at h
  | cons x xs ih =>
    intro w h
    by_cases hx : x = w
    · exact ⟨0, by simp [listIndex, hx]⟩
    · have hmem : w ∈ xs := by
        rcases List.mem_cons.mp h with h | h
        · exact absurd h.symm hx
        · exact h
      obtain ⟨j, hj⟩ := ih w hmem
      exact ⟨j + 1, by simp [listIndex, hx, hj]⟩

theorem listIndex_none : ∀ (l : List (List Char)) (w : List Char),
    w ∉ l → listIndex l w = none := by
  intro l
  induction l with
  | nil => intro w _; rfl
  | cons x xs ih =>
    intro w h
    have hx : ¬(x = w) := fun hx => h (by simp [hx])
    have hxs : w ∉ xs := fun hm => h (List.mem_cons_of_mem _ hm)
    simp [listIndex, hx, ih w hxs]

theorem tryPuncts_none (ws : List (List Char)) (word : List Char) :
    ∀ ps : List Char, (∀ p ∈ ps, word ++ [p] ∉ ws) → tryPuncts ws word ps = none := by
  intro ps
  induction ps with
  | nil => intro _; rfl
  | cons p ps ih =>
    intro h
    unfold tryPuncts
    rw [listIndex_none ws _ (h p (List.mem_cons_self _ _))]
    exact ih (fun q hq => h q (List.mem_cons_of_mem _ hq))

theorem rng_map_pred {β : Type} (f : Nat → β) : ∀ (n a : Nat),
    (rng (a + 1) n).map (fun i => f (i - 1)) = (rng a n).map f := by
  intro n
  induction n with
  | zero => intro a; rfl
  | succ n ih =>
    intro a
    simp only [rng, List.map_cons, Nat.add_sub_cancel]
    rw [ih (a + 1)]

theorem rng_map_getD_shift {α β : Type} (d : α) (g : α → β) :
    ∀ (pre rest : List α) (n : Nat),
    (rng pre.length n).map (fun i => g ((pre ++ rest).getD i d))
      = (rng 0 n).map (fun i => g (rest.getD i d)) := by
  intro pre
  induction pre with
  | nil => intro rest n; rfl
  | cons x pre ih =>
    intro rest n
    have hcong : ∀ i ∈ rng (pre.length + 1) n,
        g (((x :: pre) ++ rest).getD i d) = g ((pre ++ rest).getD (i - 1) d) := by
      intro i hi
      have hge : 1 ≤ i := (rng_mem n (pre.length + 1) i hi).1.trans' (by omega)
      obtain ⟨m, rfl⟩ : ∃ m, i = m + 1 := ⟨i - 1, by omega⟩
      simp [List.getD_cons_succ]
    calc (rng (x :: pre).length n).map (fun i => g (((x :: pre) ++ rest).getD i d))
        = (rng (pre.length + 1) n).map (fun i => g ((pre ++ rest).getD (i - 1) d)) := by
          simpa using List.map_congr_left hcong
      _ = (rng pre.length n).map (fun i => g ((pre ++ rest).getD i d)) :=
          rng_map_pred (fun i => g ((pre ++ rest).getD i d)) n pre.length
      _ = (rng 0 n).map (fun i => g (rest.getD i d)) := ih rest n

theorem rng_map_getD_self {α β : Type} (d : α) (g : α → β) :
    ∀ (l : List α), (rng 0 l.length).map (fun i => g (l.getD i d)) = l.map g := by
  intro l
  induction l with
  | nil => rfl
  | cons x xs ih =>
    have hcong : ∀ i ∈ rng 1 xs.length,
        g ((x :: xs).getD i d) = g (xs.getD (i - 1) d) := by
      intro i hi
      have hge : 1 ≤ i := (rng_mem xs.length 1 i hi).1
      obtain ⟨m, rfl⟩ : ∃ m, i = m + 1 := ⟨i - 1, by omega⟩
      simp [List.getD_cons_succ]
    calc (rng 0 (x :: xs).length).map (fun i => g ((x :: xs).getD i d))
        = g x :: (rng 1 xs.length).map (fun i => g ((x :: xs).getD i d)) := by
          simp [rng]
      _ = g x :: (rng 1 xs.length).map (fun i => g (xs.getD (i - 1) d)) := by
          rw [List.map_congr_left hcong]
      _ = g x :: (rng 0 xs.length).map (fun i => g (xs.getD i d)) := by
          rw [rng_map_pred (fun i => g (xs.getD i d)) xs.length 0]
      _ = (x :: xs).map g := by rw [ih]; rfl

theorem detok_window (pre mid post : List (List Char)) :
    detok (pre ++ mid ++ post) (rng (pre.length + 1) mid.length)
      = (mid.map stripTok).flatten := by
  unfold detok
  rw [rng_map_pred (fun i => stripTok ((pre ++ mid ++ post).getD i [])) mid.length pre.length]
  rw [List.append_assoc]
  rw [rng_map_getD_shift [] stripTok pre (mid ++ post) mid.length]
  have hcong : ∀ i ∈ rng 0 mid.length,
      stripTok ((mid ++ post).getD i []) = stripTok (mid.getD i []) := by
    intro i hi
    have hlt : i < mid.length := by have := rng_mem mid.length 0 i hi; omega
    rw [List.getD_append _ _ _ _ hlt]
  rw [List.map_congr_left hcong, rng_map_getD_self [] stripTok mid]

theorem group_detok (g : Group) (hok : g.ok) :
    ((g.tokens.map stripTok).flatten) = g.word := by
  unfold Group.tokens Group.word
  rw [List.map_append, List.flatten_append]
  have h1 : g.init.map stripTok = g.init := by
    have h1' : g.init.map stripTok = g.init.map id :=
      List.map_congr_left (fun p hp => by simp [stripTok, hok p hp])
    rw [h1', List.map_id]
  have h2 : stripTok (g.last ++ eow) = g.last := by
    simp [stripTok, containsEow_append_eow, stripEow_append_eow]
  rw [h1]
  simp [h2]

theorem flatten_groups_split (gs : List Group) (j : Nat) (hj : j < gs.length) :
    (gs.map Group.tokens).flatten
      = ((gs.take j).map Group.tokens).flatten ++ ((gs.get ⟨j, hj⟩).tokens
        ++ ((gs.drop (j + 1)).map Group.tokens).flatten) := by
  conv_lhs => rw [← List.take_append_drop j gs, List.drop_eq_getElem_cons hj]
  rw [List.map_append, List.flatten_append, List.map_cons, List.flatten_cons,
    List.get_eq_getElem]

/-! ### Lemmas about the mask accumulator -/

theorem clampQ_bounds (x : ℚ) : 0 ≤ clampQ x ∧ clampQ x ≤ 1 := by
  refine ⟨le_max_left 0 _, max_le (by norm_num) (min_le_left 1 x)⟩

theorem clampMask_in01 (m : Mask) : maskIn01 (clampMask m) := by
  intro x hx
  obtain ⟨y, -, rfl⟩ := List.mem_map.mp hx
  exact clampQ_bounds y

theorem addMask_comm (a : Mask) : ∀ b : Mask, addMask a b = addMask b a := by
  unfold addMask
  induction a with
  | nil => intro b; cases b <;> rfl
  | cons x xs ih =>
    intro b
    cases b with
    | nil => rfl
    | cons y ys => simp [ih ys, add_comm x y]

theorem containsKey_false_forall (m : LabelMasks) (k : String)
    (h : containsKey m k = false) : ∀ p ∈ m, (p.1 == k) = false := by
  intro p hp
  by_contra hne
  have hp1 : (p.1 == k) = true := by
    cases hpk : (p.1 == k)
    · exact absurd hpk hne
    · rfl
  have : containsKey m k = true := by
    unfold containsKey
    exact List.any_eq_true.mpr ⟨p, hp, hp1⟩
  rw [h] at this
  exact Bool.false_ne_true this

theorem mapUpd_no_key (m : LabelMasks) (k : String) (v : Mask)
    (h : containsKey m k = false) :
    m.map (fun p => if p.1 == k then (p.1, v) else p) = m := by
  have h' := containsKey_false_forall m k h
  have : m.map (fun p => if p.1 == k then (p.1, v) else p) = m.map id :=
    List.map_congr_left (fun p hp => by simp [h' p hp])
  rw [this, List.map_id]

theorem dictGet?_isSome (m : LabelMasks) (k : String) :
    (dictGet? m k).isSome = containsKey m k := by
  induction m with
  | nil => rfl
  | cons p t ih =>
    cases hp : (p.1 == k) with
    | true => simp [dictGet?, containsKey, List.any_cons, hp]
    | false =>
      simp only [dictGet?, containsKey, List.any_cons, hp, Bool.false_or,
        Bool.false_eq_true, if_false]
      exact ih

theorem dictGet?_none_of_no_key (m : LabelMasks) (k : String)
    (h : containsKey m k = false) : dictGet? m k = none := by
  have hs := dictGet?_isSome m k
  rw [h] at hs
  cases e : dictGet? m k with
  | none => rfl
  | some v => rw [e] at hs; simp at hs

theorem dictGet?_append_left_none (m₁ m₂ : LabelMasks) (k : String)
    (h : dictGet? m₁ k = none) : dictGet? (m₁ ++ m₂) k = dictGet? m₂ k := by
  induction m₁ with
  | nil => rfl
  | cons p t ih =>
    cases hp : (p.1 == k) with
    | true => simp [dictGet?, hp] at h
    | false =>
      simp only [dictGet?, hp, Bool.false_eq_true, if_false] at h
      simp only [List.cons_append, dictGet?, hp, Bool.false_eq_true, if_false]
      exact ih h

theorem dictGet?_mapUpd_self (m : LabelMasks) (k : String) (v : Mask) :
    containsKey m k = true →
    dictGet? (m.map (fun p => if p.1 == k then (p.1, v) else p)) k = some v := by
  induction m with
  | nil => intro h; simp [containsKey] at h
  | cons p t ih =>
    intro h
    cases hp : (p.1 == k) with
    | true => simp [dictGet?, hp]
    | false =>
      have h' : containsKey t k = true := by
        simpa [containsKey, List.any_cons, hp] using h
      simp only [List.map_cons, hp, Bool.false_eq_true, if_false, dictGet?]
      exact ih h'

theorem dictGet?_dictSet_self (m : LabelMasks) (k : String) (v : Mask) :
    dictGet? (dictSet m k v) k = some v := by
  unfold dictSet
  cases hc : containsKey m k with
  | true =>
    simp only [if_true]
    exact dictGet?_mapUpd_self m k v hc
  | false =>
    simp only [Bool.false_eq_true, if_false]
    rw [dictGet?_append_left_none m [(k, v)] k (dictGet?_none_of_no_key m k hc)]
    simp [dictGet?]

theorem dictGet?_mapUpd_ne (m : LabelMasks) (k' k : String) (v : Mask) (hne : k ≠ k') :
    dictGet? (m.map (fun p => if p.1 == k' then (p.1, v) else p)) k = dictGet? m k := by
  induction m with
  | nil => rfl
  | cons p t ih =>
    cases hp : (p.1 == k') with
    | true =>
      have hpe : p.1 = k' := by simpa using hp
      have hpkb : (p.1 == k) = false := by
        cases hq : (p.1 == k)
        · rfl
        · have : p.1 = k := by simpa using hq
          exact absurd (this ▸ hpe) hne
      simp only [List.map_cons, hp, if_true, dictGet?, hpkb, Bool.false_eq_true, if_false]
      exact ih
    | false =>
      cases hpk : (p.1 == k) with
      | true => simp [dictGet?, hp, hpk]
      | false =>
        simp only [List.map_cons, hp, Bool.false_eq_true, if_false, dictGet?, hpk]
        exact ih

theorem dictGet?_append_single_ne (m : LabelMasks) (k' k : String) (v : Mask)
    (hne : k ≠ k') :
    dictGet? (m ++ [(k', v)]) k = dictGet? m k := by
  induction m with
  | nil =>
    have hk : (k' == k) = false := by
      cases hq : (k' == k)
      · rfl
      · have : k' = k := by simpa using hq
        exact absurd this.symm hne
    simp [dictGet?, hk]
  | cons p t ih =>
    cases hp : (p.1 == k) with
    | true => simp [dictGet?, hp]
    | false =>
      simp only [List.cons_append, dictGet?, hp, Bool.false_eq_true, if_false]
      exact ih

theorem containsKey_append_single_self (m : LabelMasks) (k : String) (v : Mask) :
    containsKey (m ++ [(k, v)]) k = true := by
  unfold containsKey
  rw [List.any_append]
  simp

/-! ### Claim theorems: token-merge resolver -/

theorem compute_eq_of_lookup (tokens : List (List Char)) (prompt word : List Char) (j : Nat)
    (h : lookupWordIdx (pySplit (toLowerL prompt)) (toLowerL word) = some j) :
    compute_token_merge_indices tokens prompt word none
      = .ok ((tokenWalk (toLowerL word) j tokens 0 0 [] []).map (· + 1)) := by
  simp only [compute_token_merge_indices]
  rw [h]

/-- C1 counterexample: for the prompt `cat` tokenized as the two sub-word
pieces `ca`, `t</w>` (the word occurring exactly once in the whitespace-split
prompt), the resolver returns `[1, 1, 2]`, which is not strictly ascending:
the code appends the index of a non-final piece twice. -/
theorem C1_cex :
    compute_token_merge_indices ["ca".toList, "t</w>".toList]
        "cat".toList "cat".toList none = .ok [1, 1, 2] ∧
    ¬ List.Pairwise (· < ·) ([1, 1, 2] : List Nat) :=
  ⟨rfl, by decide⟩

/-- C1 (amended): for every prompt and word whose lower-cased form occurs
exactly once in the whitespace-split lower-cased prompt, and every faithful
tokenization of the prompt (each word a run of marker-free pieces closed by
a piece carrying the end-of-word marker), the resolver returns a non-empty,
non-decreasing sequence of token indices; after removing duplicates the
indices are strictly ascending and the corresponding tokens, stripped of
end-of-word markers and concatenated, equal the lower-cased word. -/
theorem C1_resolver_merge_span (tokens : List (List Char)) (prompt word : List Char)
    (gs : List Group)
    (hok : ∀ g ∈ gs, g.ok)
    (htok : tokens = (gs.map Group.tokens).flatten)
    (hws : pySplit (toLowerL prompt) = gs.map Group.word)
    (hcount : (gs.map Group.word).count (toLowerL word) = 1) :
    ∃ res, compute_token_merge_indices tokens prompt word none = .ok res ∧
      res ≠ [] ∧ List.Pairwise (· ≤ ·) res ∧
      List.Pairwise (· < ·) res.dedup ∧
      detok tokens res.dedup = toLowerL word := by
  have hmem : toLowerL word ∈ gs.map Group.word :=
    List.count_pos_iff.mp (hcount ▸ Nat.one_pos)
  obtain ⟨j, hjsome⟩ := listIndex_mem _ _ hmem
  obtain ⟨hjlt, hjget⟩ := listIndex_some _ _ _ hjsome
  have hjlt' : j < gs.length := by simpa using hjlt
  have hword : (gs.get ⟨j, hjlt'⟩).word = toLowerL word := by
    rw [← hjget]
    simp [List.get_eq_getElem, List.getElem_map]
  have hlook : lookupWordIdx (pySplit (toLowerL prompt)) (toLowerL word) = some j := by
    unfold lookupWordIdx
    rw [hws, hjsome]
  have hwalk := tokenWalk_groups (toLowerL word) gs j hjlt' hok hword [] 0 0
  rw [List.append_nil] at hwalk
  simp only [Nat.zero_add] at hwalk
  have hmap : ((dupTwice (prefLen gs j) (gs.get ⟨j, hjlt'⟩).init.length
        ++ [prefLen gs j + (gs.get ⟨j, hjlt'⟩).init.length]).map (· + 1))
      = dupTwice (prefLen gs j + 1) (gs.get ⟨j, hjlt'⟩).init.length
        ++ [prefLen gs j + 1 + (gs.get ⟨j, hjlt'⟩).init.length] := by
    rw [List.map_append, dupTwice_map_succ]
    simp
    omega
  refine ⟨dupTwice (prefLen gs j + 1) (gs.get ⟨j, hjlt'⟩).init.length
      ++ [prefLen gs j + 1 + (gs.get ⟨j, hjlt'⟩).init.length], ?_, ?_, ?_, ?_, ?_⟩
  · rw [compute_eq_of_lookup tokens prompt word j hlook, htok, hwalk, hmap]
  · simp
  · exact dupTwice_pairwise_le _ _
  · rw [dedup_dupTwice]
    exact rng_pairwise_lt _ _
  · rw [dedup_dupTwice]
    have hsplit := flatten_groups_split gs j hjlt'
    have hpre : (((gs.take j).map Group.tokens).flatten).length = prefLen gs j := rfl
    have hmid : (gs.get ⟨j, hjlt'⟩).tokens.length
        = (gs.get ⟨j, hjlt'⟩).init.length + 1 := by simp [Group.tokens]
    have hwin := detok_window (((gs.take j).map Group.tokens).flatten)
      (gs.get ⟨j, hjlt'⟩).tokens (((gs.drop (j + 1)).map Group.tokens).flatten)
    rw [hpre, hmid] at hwin
    rw [htok, hsplit, ← List.append_assoc, hwin,
      group_detok _ (hok _ (List.get_mem gs _ _)), hword]

/-- Witness for C1: the spec's own example prompt with a one-piece
tokenization of every word. -/
theorem C1_resolver_merge_span_witness :
    ∃ res, compute_token_merge_indices
        ["a</w>".toList, "cat</w>".toList, "on</w>".toList, "a</w>".toList, "mat</w>".toList]
        "a cat on a mat".toList "cat".toList none = .ok res ∧
      res ≠ [] ∧ List.Pairwise (· ≤ ·) res ∧
      List.Pairwise (· < ·) res.dedup ∧
      detok ["a</w>".toList, "cat</w>".toList, "on</w>".toList, "a</w>".toList,
        "mat</w>".toList] res.dedup = toLowerL "cat".toList :=
  C1_resolver_merge_span _ _ _
    [⟨[], "a".toList⟩, ⟨[], "cat".toList⟩, ⟨[], "on".toList⟩, ⟨[], "a".toList⟩,
      ⟨[], "mat".toList⟩]
    (by decide) (by decide) (by decide) (by decide)

/-- C2 (code bug): when the token walk exhausts the token stream without
reaching the stop condition, the code silently returns the (possibly empty)
accumulated index list instead of raising a `TokenAlignmentFailed` error:
here the word `cat` is sought at word index 0 in the token stream of `dog`
and the call returns `ok []`. -/
theorem C2_exhaustion_returns_value :
    compute_token_merge_indices ["dog</w>".toList] "dog".toList "cat".toList (some 0)
      = .ok [] := rfl

/-- C3 (confirmed): when neither the lower-cased word nor the word extended
with any of `.`, `,`, `!`, `?` occurs in the whitespace-split lower-cased
prompt and no explicit word index is given, the resolver fails with the
word-not-found error carrying the (lower-cased) word and prompt. -/
theorem C3_word_not_found (tokens : List (List Char)) (prompt word : List Char)
    (h0 : toLowerL word ∉ pySplit (toLowerL prompt))
    (hp : ∀ p ∈ puncts, toLowerL word ++ [p] ∉ pySplit (toLowerL prompt)) :
    compute_token_merge_indices tokens prompt word none
      = .error (.wordNotFound (toLowerL word) (toLowerL prompt)) := by
  have h1 : listIndex (pySplit (toLowerL prompt)) (toLowerL word) = none :=
    listIndex_none _ _ h0
  have h2 : tryPuncts (pySplit (toLowerL prompt)) (toLowerL word) puncts = none :=
    tryPuncts_none _ _ puncts hp
  have hlook : lookupWordIdx (pySplit (toLowerL prompt)) (toLowerL word) = none := by
    unfold lookupWordIdx
    rw [h1, h2]
  simp only [compute_token_merge_indices]
  rw [hlook]

/-- Witness for C3: the word `cat` is absent from the prompt `a dog`. -/
theorem C3_word_not_found_witness :
    compute_token_merge_indices ["a</w>".toList, "dog</w>".toList]
        "a dog".toList "cat".toList none
      = .error (.wordNotFound (toLowerL "cat".toList) (toLowerL "a dog".toList)) :=
  C3_word_not_found _ _ _ (by decide) (by decide)

/-! ### Claim theorems: mask accumulator -/

/-- C4 counterexample: inserting a mask under a fresh label stores it
verbatim, so an input value outside `[0, 1]` survives in the returned map
and the claimed unconditional clamping invariant fails. -/
theorem C4_cex :
    _add_mask [] "cat" [(2 : ℚ)] false = some [("cat", [(2 : ℚ)])] ∧
    ¬ mapIn01 [("cat", [(2 : ℚ)])] := by
  refine ⟨rfl, fun h => ?_⟩
  have h2 := h ("cat", [(2 : ℚ)]) (List.mem_singleton.mpr rfl) (2 : ℚ)
    (List.mem_singleton.mpr rfl)
  norm_num at h2

/-- C4 (amended): after a call of the mask accumulator that returns a map,
every stored value lies in `[0, 1]` provided every previously stored mask
did and either the new mask lies in `[0, 1]` or the call takes the merge
path (whose result is clamped); a fresh insertion stores the mask
verbatim. -/
theorem C4_in01_preserved (masks : LabelMasks) (word : String) (mask : Mask)
    (s80 : Bool) (hm : mapIn01 masks)
    (hnew : maskIn01 mask ∨ containsKey masks (remapLabel s80 word) = true)
    (res : LabelMasks) (h : _add_mask masks word mask s80 = some res) :
    mapIn01 res := by
  simp only [_add_mask] at h
  cases hc : containsKey masks (remapLabel s80 word) with
  | true =>
    rw [hc] at h
    simp only [if_true] at h
    cases e : dictGet? masks (lowerStr (remapLabel s80 word)) with
    | none => rw [e] at h; exact absurd h (by simp)
    | some old =>
      rw [e] at h
      have hres : dictSet masks (remapLabel s80 word) (clampMask (addMask old mask))
          = res := by
        injection h
      subst hres
      intro p hp
      unfold dictSet at hp
      rw [if_pos hc] at hp
      obtain ⟨q, hq, hqp⟩ := List.mem_map.mp hp
      by_cases hqk : (q.1 == remapLabel s80 word) = true
      · rw [if_pos hqk] at hqp
        rw [← hqp]
        exact clampMask_in01 _
      · rw [if_neg hqk] at hqp
        rw [← hqp]
        exact hm q hq
  | false =>
    rcases hnew with hnew | hnew
    · rw [hc] at h
      simp only [Bool.false_eq_true, if_false] at h
      have hres : dictSet masks (remapLabel s80 word) mask = res := by injection h
      subst hres
      unfold dictSet
      rw [if_neg (by rw [hc]; exact Bool.false_ne_true)]
      intro p hp
      rcases List.mem_append.mp hp with hp | hp
      · exact hm p hp
      · simp only [List.mem_singleton] at hp
        rw [hp]
        exact hnew
    · rw [hc] at hnew
      exact Bool.noConfusion hnew

/-- Witness for C4: inserting an in-range mask into the empty map keeps the
map in range. -/
theorem C4_in01_preserved_witness : mapIn01 [("cat", [(1 : ℚ)/2])] :=
  C4_in01_preserved [] "cat" [(1 : ℚ)/2] false (by intro p hp; simp at hp)
    (Or.inl (by intro x hx; rw [List.mem_singleton] at hx; subst hx; norm_num))
    [("cat", [(1 : ℚ)/2])] rfl

/-- C5 counterexample: with the stored key `CAT` and the label `cat`, which
differ only in case, the code takes the insert path and ends with two
separate entries instead of the claimed case-insensitive merge into a
single clamped sum. -/
theorem C5_cex :
    _add_mask [("CAT", [(1 : ℚ)/2])] "cat" [(1 : ℚ)/2] false
      = some [("CAT", [(1 : ℚ)/2]), ("cat", [(1 : ℚ)/2])] ∧
    ([("CAT", [(1 : ℚ)/2]), ("cat", [(1 : ℚ)/2])] : LabelMasks)
      ≠ [("CAT", clampMask (addMask [(1 : ℚ)/2] [(1 : ℚ)/2]))] := by
  refine ⟨rfl, fun h => ?_⟩
  have hlen := congrArg List.length h
  simp at hlen

/-- C5 (amended): when the (possibly remapped) label exactly matches an
existing key (case-sensitive comparison) and the lower-cased label is also
a key, the accumulator stores under the label the element-wise sum of the
mask kept under the lower-cased label and the new mask, clamped to
`[0, 1]`; labels that differ from every stored key only by case are
inserted as fresh entries rather than merged. -/
theorem C5_exact_key_merge (masks : LabelMasks) (word : String) (mask old : Mask)
    (s80 : Bool)
    (hk : containsKey masks (remapLabel s80 word) = true)
    (hl : dictGet? masks (lowerStr (remapLabel s80 word)) = some old) :
    ∃ res, _add_mask masks word mask s80 = some res ∧
      dictGet? res (remapLabel s80 word) = some (clampMask (addMask old mask)) := by
  refine ⟨dictSet masks (remapLabel s80 word) (clampMask (addMask old mask)), ?_, ?_⟩
  · simp only [_add_mask]
    rw [hk]
    simp only [if_true]
    rw [hl]
  · exact dictGet?_dictSet_self _ _ _

/-- Witness for C5: merging a second `cat` mask into a map holding `cat`. -/
theorem C5_exact_key_merge_witness :
    ∃ res, _add_mask [("cat", [(1 : ℚ)/2])] "cat" [(1 : ℚ)/2] false = some res ∧
      dictGet? res (remapLabel false "cat")
        = some (clampMask (addMask [(1 : ℚ)/2] [(1 : ℚ)/2])) :=
  C5_exact_key_merge [("cat", [(1 : ℚ)/2])] "cat" [(1 : ℚ)/2] [(1 : ℚ)/2] false
    rfl rfl

/-- Accumulating twice under the same label into a map that contains
neither the remapped label nor its lower-cased form: the first call
inserts, the second merges when the label is its own lower-casing and
otherwise fails with the missing-key error. -/
theorem add_twice_fresh (m : LabelMasks) (word : String) (s80 : Bool) (X Y : Mask)
    (h1 : containsKey m (remapLabel s80 word) = false)
    (h2 : containsKey m (lowerStr (remapLabel s80 word)) = false) :
    (_add_mask m word X s80).bind (fun m1 => _add_mask m1 word Y s80)
      = if lowerStr (remapLabel s80 word) = remapLabel s80 word
        then some (m ++ [(remapLabel s80 word, clampMask (addMask X Y))])
        else none := by
  have step1 : _add_mask m word X s80 = some (m ++ [(remapLabel s80 word, X)]) := by
    simp only [_add_mask, dictSet, h1, Bool.false_eq_true, if_false]
  rw [step1]
  show _add_mask (m ++ [(remapLabel s80 word, X)]) word Y s80 = _
  have hck : containsKey (m ++ [(remapLabel s80 word, X)]) (remapLabel s80 word) = true :=
    containsKey_append_single_self m _ X
  simp only [_add_mask]
  rw [hck]
  simp only [if_true]
  by_cases hlw : lowerStr (remapLabel s80 word) = remapLabel s80 word
  · rw [if_pos hlw]
    have hgl : dictGet? (m ++ [(remapLabel s80 word, X)])
        (lowerStr (remapLabel s80 word)) = some X := by
      rw [dictGet?_append_left_none m _ _ (dictGet?_none_of_no_key m _ h2), hlw]
      simp [dictGet?]
    rw [hgl]
    have hds : dictSet (m ++ [(remapLabel s80 word, X)]) (remapLabel s80 word)
        (clampMask (addMask X Y))
        = m ++ [(remapLabel s80 word, clampMask (addMask X Y))] := by
      unfold dictSet
      rw [if_pos hck, List.map_append, mapUpd_no_key m _ _ h1]
      simp
    show some (dictSet (m ++ [(remapLabel s80 word, X)]) (remapLabel s80 word)
      (clampMask (addMask X Y))) = _
    rw [hds]
  · rw [if_neg hlw]
    have hwb : (remapLabel s80 word == lowerStr (remapLabel s80 word)) = false := by
      cases hq : (remapLabel s80 word == lowerStr (remapLabel s80 word))
      · rfl
      · have hqe : remapLabel s80 word = lowerStr (remapLabel s80 word) := by simpa using hq
        exact absurd hqe.symm hlw
    have hgl : dictGet? (m ++ [(remapLabel s80 word, X)])
        (lowerStr (remapLabel s80 word)) = none := by
      rw [dictGet?_append_left_none m _ _ (dictGet?_none_of_no_key m _ h2)]
      simp [dictGet?, hwb]
    rw [hgl]

/-- C6 counterexample: for the map `{cat ↦ [0]}` and the label `Cat`, the
order of accumulating the masks `[1]` and `[0]` changes the result, because
the merge path reads the mask stored under the lower-cased key and
discards the mask stored under the label itself. -/
theorem C6_cex :
    (_add_mask [("cat", [(0 : ℚ)])] "Cat" [(1 : ℚ)] false).bind
        (fun m1 => _add_mask m1 "Cat" [(0 : ℚ)] false)
      ≠ (_add_mask [("cat", [(0 : ℚ)])] "Cat" [(0 : ℚ)] false).bind
        (fun m1 => _add_mask m1 "Cat" [(1 : ℚ)] false) := by
  intro h
  have hL : (_add_mask [("cat", [(0 : ℚ)])] "Cat" [(1 : ℚ)] false).bind
      (fun m1 => _add_mask m1 "Cat" [(0 : ℚ)] false)
      = some [("cat", [(0 : ℚ)]), ("Cat", [clampQ ((0 : ℚ) + (0 : ℚ))])] := rfl
  have hR : (_add_mask [("cat", [(0 : ℚ)])] "Cat" [(0 : ℚ)] false).bind
      (fun m1 => _add_mask m1 "Cat" [(1 : ℚ)] false)
      = some [("cat", [(0 : ℚ)]), ("Cat", [clampQ ((0 : ℚ) + (1 : ℚ))])] := rfl
  rw [hL, hR] at h
  have h0 : clampQ ((0 : ℚ) + (0 : ℚ)) = 0 := by norm_num [clampQ]
  have h1 : clampQ ((0 : ℚ) + (1 : ℚ)) = 1 := by norm_num [clampQ]
  rw [h0, h1] at h
  simp at h

/-- C6 (amended): accumulation of two masks under one label is commutative
whenever the starting map contains neither the (possibly remapped) label
nor its lower-cased form; both orders give the clamped element-wise sum
(or both fail with the missing-key error when the label is not its own
lower-casing). -/
theorem C6_accumulate_comm (m : LabelMasks) (word : String) (A B : Mask) (s80 : Bool)
    (h1 : containsKey m (remapLabel s80 word) = false)
    (h2 : containsKey m (lowerStr (remapLabel s80 word)) = false) :
    (_add_mask m word A s80).bind (fun m1 => _add_mask m1 word B s80)
      = (_add_mask m word B s80).bind (fun m1 => _add_mask m1 word A s80) := by
  rw [add_twice_fresh m word s80 A B h1 h2, add_twice_fresh m word s80 B A h1 h2,
    addMask_comm A B]

/-- Witness for C6: two accumulations under `cat` starting from the empty
map commute. -/
theorem C6_accumulate_comm_witness :
    (_add_mask [] "cat" [(1 : ℚ)] false).bind
        (fun m1 => _add_mask m1 "cat" [(0 : ℚ)] false)
      = (_add_mask [] "cat" [(0 : ℚ)] false).bind
        (fun m1 => _add_mask m1 "cat" [(1 : ℚ)] false) :=
  C6_accumulate_comm [] "cat" [(1 : ℚ)] [(0 : ℚ)] false (by decide) (by decide)

/-- C7 (confirmed): starting from the empty map, accumulating a mask under
`car` and then one under `bus` with coarsening enabled yields a single
`vehicle` entry holding the element-wise sum of the two masks clamped to
`[0, 1]`. -/
theorem C7_coarsen_merge (A B : Mask) :
    (_add_mask [] "car" A true).bind (fun m => _add_mask m "bus" B true)
      = some [("vehicle", clampMask (addMask A B))] := rfl

/-- C8 (confirmed): the coarsening map sends each of the 80 fine-grained
COCO labels to one of the 27 coarse labels (the label `person`, absent from
the table, passes through to itself, which is itself a coarse label), and
any label absent from the table passes through `_add_mask` exactly as
without coarsening. -/
theorem C8_remap_table :
    (∀ w ∈ COCO80_LABELS, coco80Get w ∈ COCOSTUFF27_LABELS) ∧
    (∀ w : String, COCO80_TO_27.find? (fun p => p.1 == w) = none →
      ∀ (masks : LabelMasks) (mask : Mask),
        _add_mask masks w mask true = _add_mask masks w mask false) := by
  constructor
  · decide
  · intro w hw masks mask
    have hr : remapLabel true w = remapLabel false w := by
      simp [remapLabel, coco80Get, hw]
    simp only [_add_mask, hr]

/-- Witness for C8: `car` coarsens into the coarse vocabulary, and the
out-of-table label `hello` behaves identically with and without
coarsening. -/
theorem C8_remap_table_witness :
    coco80Get "car" ∈ COCOSTUFF27_LABELS ∧
    _add_mask [] "hello" [(1 : ℚ)] true = _add_mask [] "hello" [(1 : ℚ)] false :=
  ⟨C8_remap_table.1 "car" (by decide), C8_remap_table.2 "hello" (by decide) [] [(1 : ℚ)]⟩

/-- C9 (confirmed): the merge path looks the lower-cased label up with a
plain (raising) indexing operation; on a map whose only key is `Cat` the
call with label `Cat` hits the missing-key error, while under the
precondition that every stored key equals its own lower-casing the
accumulator always returns a map. -/
theorem C9_lowercase_keys_total :
    _add_mask [("Cat", [(1 : ℚ)])] "Cat" [(1 : ℚ)] false = none ∧
    (∀ (masks : LabelMasks) (word : String) (mask : Mask) (s80 : Bool),
      (∀ p ∈ masks, lowerStr p.1 = p.1) →
      (_add_mask masks word mask s80).isSome = true) := by
  constructor
  · rfl
  · intro masks word mask s80 hlow
    cases hc : containsKey masks (remapLabel s80 word) with
    | true =>
      have hex : ∃ x, (remapLabel s80 word, x) ∈ masks := by simpa [containsKey] using hc
      obtain ⟨x, hx⟩ := hex
      have hwl : lowerStr (remapLabel s80 word) = remapLabel s80 word := hlow _ hx
      have hsome : (dictGet? masks (lowerStr (remapLabel s80 word))).isSome = true := by
        rw [hwl, dictGet?_isSome]
        exact hc
      cases e : dictGet? masks (lowerStr (remapLabel s80 word)) with
      | none => rw [e] at hsome; simp at hsome
      | some old =>
        simp only [_add_mask]
        rw [hc]
        simp only [if_true]
        rw [e]
        rfl
    | false =>
      simp only [_add_mask]
      rw [hc]
      simp only [Bool.false_eq_true, if_false]
      rfl

/-- Witness for C9: on the lower-case-keyed map `{cat ↦ [1]}` the
accumulator returns a map. -/
theorem C9_lowercase_keys_total_witness :
    (_add_mask [("cat", [(1 : ℚ)])] "cat" [(1 : ℚ)] false).isSome = true :=
  C9_lowercase_keys_total.2 [("cat", [(1 : ℚ)])] "cat" [(1 : ℚ)] false (by decide)

/-- C10 (confirmed): a returned map differs from the argument map at most
at the (possibly remapped) label: looking up any other key gives the same
result before and after the call.  (In-place mutation of the Python dict is
modelled by returning the updated association list.) -/
theorem C10_frame (masks : LabelMasks) (word : String) (mask : Mask) (s80 : Bool)
    (res : LabelMasks) (h : _add_mask masks word mask s80 = some res)
    (k : String) (hk : k ≠ remapLabel s80 word) :
    dictGet? res k = dictGet? masks k := by
  simp only [_add_mask] at h
  cases hc : containsKey masks (remapLabel s80 word) with
  | true =>
    rw [hc] at h
    simp only [if_true] at h
    cases e : dictGet? masks (lowerStr (remapLabel s80 word)) with
    | none => rw [e] at h; exact absurd h (by simp)
    | some old =>
      rw [e] at h
      have hres : dictSet masks (remapLabel s80 word) (clampMask (addMask old mask))
          = res := by injection h
      subst hres
      unfold dictSet
      rw [if_pos hc]
      exact dictGet?_mapUpd_ne masks _ k _ hk
  | false =>
    rw [hc] at h
    simp only [Bool.false_eq_true, if_false] at h
    have hres : dictSet masks (remapLabel s80 word) mask = res := by injection h
    subst hres
    unfold dictSet
    rw [if_neg (by rw [hc]; exact Bool.false_ne_true)]
    exact dictGet?_append_single_ne masks _ k mask hk

/-- Witness for C10: inserting `cat` into `{dog ↦ [1]}` leaves the lookup
of `dog` unchanged. -/
theorem C10_frame_witness :
    dictGet? [("dog", [(1 : ℚ)]), ("cat", [(1 : ℚ)])] "dog"
      = dictGet? [("dog", [(1 : ℚ)])] "dog" :=
  C10_frame [("dog", [(1 : ℚ)])] "cat" [(1 : ℚ)] false
    [("dog", [(1 : ℚ)]), ("cat", [(1 : ℚ)])] rfl "dog" (by decide)

end Daam
